import Mathlib

/-!
Verification of the hash table in `hashmap.c` / `hashmap.h` (putty-X).

The C module stores string keys and string values in a fixed array of
`NUM_BUCKETS` buckets; each bucket is the head entry of a singly linked
collision chain.  We embed the heap structure shallowly:

* a bucket is its head entry (`key`, `value`, `has_entry`) together with the
  list of chain nodes hanging off the head's `next` pointer, in chain order.
  Chain nodes always carry a concrete key and value by the time
  `hashmap_add` returns, so they are modelled as plain `String × String`
  pairs; the head's `key`/`value` pointers can be `NULL` (empty bucket), so
  they are `Option String`.
* `NULL` pointers become `none`, `next == NULL` for the k-entry after an add
  becomes truncation of the modelled chain list.

The hashing primitive `crc32_compute` lives in PuTTY's ssh library, outside
this module; `hash()` only takes its result modulo `num_buckets`.  We
therefore parameterise every operation by an arbitrary (deterministic)
function `hfn : String → Nat` standing for `crc32_compute(key, strlen(key))`.

`Hashmap()` intends to zero the whole bucket array (its `memset` call); the
byte count that `memset` actually receives is `sizeof(h->data)`, the size of
a pointer, which is modelled separately below
(`hashmap_init_memset_len`).  The operational model uses the intended
zero-initialised array, which is what the rest of the module assumes.
-/

namespace HashmapC

/-- One bucket of the table: the head `hashmap_entry` that lives inside the
bucket array (fields `key`, `value`, `has_entry`) plus the chain of
`hashmap_entry` nodes reachable through `next`, in chain order.  A chain
node's `has_entry` field is never read by the C code, so it is not
modelled. -/
structure Bucket where
  key : Option String
  value : Option String
  has_entry : Bool
  chain : List (String × String)
deriving DecidableEq

/-- A zeroed `hashmap_entry`: `NULL` key, `NULL` value, `has_entry == 0`,
`next == NULL`. -/
def emptyBucket : Bucket := ⟨none, none, false, []⟩

/-- `struct hashmap`: the bucket array, `num_buckets` and `num_entries`. -/
structure hashmap where
  data : List Bucket
  num_buckets : Nat
  num_entries : Nat
deriving DecidableEq

/-- `#define NUM_BUCKETS (256)` -/
def NUM_BUCKETS : Nat := 256

/-- `Hashmap()`: fresh table with `NUM_BUCKETS` zeroed buckets,
`num_entries = 0`, `num_buckets = NUM_BUCKETS`.  (The intended effect of the
`memset`; the byte-count slip in that call is modelled separately by
`hashmap_init_memset_len` below.) -/
def Hashmap : hashmap :=
  { data := List.replicate NUM_BUCKETS emptyBucket
    num_buckets := NUM_BUCKETS
    num_entries := 0 }

/-- `hash()`: `crc32_compute(key, strlen(key)) % h->num_buckets`, with the
external CRC32 primitive abstracted as `hfn`. -/
def hash (hfn : String → Nat) (h : hashmap) (key : String) : Nat :=
  hfn key % h.num_buckets

/-- `strcmp(key, cell->key) == 0` where `cell->key` may be `NULL`.  The C
code only ever reaches an unguarded `strcmp` on a non-`NULL` stored key (at
line 214 of `hashmap_get` the `NULL` case is guarded explicitly); a `NULL`
key is treated as "no match". -/
def keyEq (k : String) : Option String → Bool
  | none => false
  | some s => s = k

/-- The chain-walking part of `hashmap_add`, entered when the bucket head is
occupied by a different key (lines 162-177 together with the write-back at
lines 182-191): walk the chain looking for `k`; on a match, overwrite that
node's value and set its `next` to `NULL` (dropping the rest of the chain);
at the end of the chain without a match, append a fresh node carrying
`(k, v)` whose `next` is `NULL`. -/
def chainAdd (k v : String) : List (String × String) → List (String × String)
  | [] => [(k, v)]
  | c :: rest => if c.1 = k then [(k, v)] else c :: chainAdd k v rest

/-- `hashmap_add` restricted to the bucket it rewrites.  Condition of line
162: head occupied and head key differs from `k` — then the chain walk
(`chainAdd`) runs.  Otherwise (`else` of line 178 plus lines 182-191) the
head entry itself receives `k` and `v`, `has_entry` is set, and the head's
`next` is set to `NULL`, i.e. the modelled chain becomes `[]`. -/
def bucketAdd (k v : String) (b : Bucket) : Bucket :=
  if b.has_entry = true ∧ b.key ≠ some k then
    { b with chain := chainAdd k v b.chain }
  else
    { key := some k, value := some v, has_entry := true, chain := [] }

/-- `hashmap_add(h, key, value)`: rewrite the bucket at `hash(h, key)`.
`num_entries` is not touched by the C function. -/
def hashmap_add (hfn : String → Nat) (h : hashmap) (k v : String) : hashmap :=
  { h with
    data := h.data.set (hash hfn h k)
      (bucketAdd k v (h.data.getD (hash hfn h k) emptyBucket)) }

/-- The walk of `hashmap_get` (lines 207-223): starting from the current
cell, advance while `cell->next != NULL && strcmp(key, cell->key)`; at the
stopping cell return its value if the key matches (`!cell->key ||
strcmp(...)` guard), else `NULL`. -/
def walkGet (k : String) :
    Option String × Option String → List (Option String × Option String) →
    Option String
  | c, [] => if keyEq k c.1 then c.2 else none
  | c, d :: rest => if keyEq k c.1 then c.2 else walkGet k d rest

/-- View a chain node as a cell with definitely-present key and value. -/
def pairSome (c : String × String) : Option String × Option String :=
  (some c.1, some c.2)

/-- The full cell list of a bucket, head first, as `hashmap_get` and
`hashmap_add` traverse it. -/
def cellsOf (b : Bucket) : List (Option String × Option String) :=
  (b.key, b.value) :: b.chain.map pairSome

/-- `hashmap_get(h, key)`: walk the chain of bucket `hash(h, key)`; return
the matching cell's value, `NULL` when the walk ends without a match. -/
def hashmap_get (hfn : String → Nat) (h : hashmap) (key : String) :
    Option String :=
  let b := h.data.getD (hash hfn h key) emptyBucket
  walkGet key (b.key, b.value) (b.chain.map pairSome)

/-- The keys `hashmap_keys` emits for one bucket (lines 107-118): nothing
when `has_entry != 1`; otherwise every cell's `key` pointer, head first,
then the chain in chain order. -/
def bucketKeys (b : Bucket) : List (Option String) :=
  if b.has_entry = true then b.key :: b.chain.map (fun c => some c.1) else []

/-- `hashmap_keys(h)`: scan the buckets in array order, emitting each
occupied bucket's keys in chain order.  (The C loop runs `i` from `0` to
`h->num_buckets - 1` over `h->data`; for every table built by this module
`h->data` has exactly `num_buckets` cells, so we fold over the array.) -/
def hashmap_keys (h : hashmap) : List (Option String) :=
  (h.data.map bucketKeys).flatten

/-- The populated entries of one bucket as (key pointer, value pointer)
pairs: the head when `has_entry == 1`, then the chain nodes. -/
def bucketEntries (b : Bucket) : List (Option String × Option String) :=
  if b.has_entry = true then
    (b.key, b.value) :: b.chain.map pairSome
  else []

/-- All populated entries of the table, bucket by bucket. -/
def hashmap_entries (h : hashmap) : List (Option String × Option String) :=
  (h.data.map bucketEntries).flatten

/-- Number of populated entries of the table whose key equals `k`
(content equality). -/
def countKeyEq (h : hashmap) (k : String) : Nat :=
  ((hashmap_entries h).filter (fun e => e.1 = some k)).length

/-- The key/value pairs whose storage `hashmap_free` actually releases in
one bucket (lines 75-91): nothing unless `has_entry == 1 && cell->next`;
in that case the head's key/value, then each chain node's key/value while
the node has a successor — so every chain node except the last. -/
def bucketFreed (b : Bucket) : List (Option String × Option String) :=
  if b.has_entry = true ∧ b.chain ≠ [] then
    (b.key, b.value) :: b.chain.dropLast.map pairSome
  else []

/-- All entry storage released by `hashmap_free`, bucket by bucket (the
bucket array itself and the `hashmap` struct are additionally freed; those
are not entry storage). -/
def hashmap_free_freed (h : hashmap) : List (Option String × Option String) :=
  (h.data.map bucketFreed).flatten

/-- Raw key multiset of a bucket: the head's key if present plus all chain
keys.  This is the notion of "keys currently stored in the table". -/
def rawBucketKeys (b : Bucket) : List String :=
  b.key.toList ++ b.chain.map (fun c => c.1)

/-- All keys currently stored in the table. -/
def storedKeys (h : hashmap) : List String :=
  (h.data.map rawBucketKeys).flatten

/-- Run a sequence of `hashmap_add` operations on a fresh `Hashmap()`. -/
def runOps (hfn : String → Nat) (ops : List (String × String)) : hashmap :=
  ops.foldl (fun h p => hashmap_add hfn h p.1 p.2) Hashmap

/-- The byte count the `memset` in `Hashmap()` receives: `sizeof(h->data)`
where `h->data` has pointer type `hashmap_entry *`, i.e. the platform's
pointer size — not the size of the array it points to. -/
def hashmap_init_memset_len (ptrSize : Nat) : Nat := ptrSize

/-- The byte count actually needed to zero the bucket array allocated by
`snewn(NUM_BUCKETS, hashmap_entry)`: `NUM_BUCKETS * sizeof(hashmap_entry)`.
A `hashmap_entry` holds two `char *`, an `unsigned int` and a
`hashmap_entry *`, so on any platform `sizeof(hashmap_entry) ≥ 3 * ptrSize
+ 4`. -/
def bucket_array_bytes (entrySize : Nat) : Nat := NUM_BUCKETS * entrySize

/-- A concrete instance of the abstracted hash primitive that sends every
key to bucket 0, used to exercise the collision paths on explicit inputs
(any deterministic `hfn` is a legitimate instance, since `crc32_compute` is
external to this module). -/
def hconst : String → Nat := fun _ => 0

/-- Well-formedness of the bucket at index `i`, maintained by the module:
an unoccupied head is fully zeroed; every stored key hashes to this bucket;
the keys in the bucket are pairwise distinct; an occupied head has a key. -/
def BucketWF (hfn : String → Nat) (i : Nat) (b : Bucket) : Prop :=
  (b.has_entry = false → b = emptyBucket) ∧
  (∀ k, b.key = some k → hfn k % NUM_BUCKETS = i) ∧
  (∀ c ∈ b.chain, hfn c.1 % NUM_BUCKETS = i) ∧
  (rawBucketKeys b).Nodup ∧
  (b.has_entry = true → b.key ≠ none)

/-- Well-formedness of a table: the dimensions fixed by `Hashmap()` and
`BucketWF` at every index. -/
def WF (hfn : String → Nat) (h : hashmap) : Prop :=
  h.num_buckets = NUM_BUCKETS ∧ h.data.length = NUM_BUCKETS ∧
  ∀ i, ∀ hi : i < h.data.length, BucketWF hfn i (h.data.get ⟨i, hi⟩)

/-! ### Chain-level lemmas -/

theorem chainAdd_ne_nil (k v : String) (l : List (String × String)) :
    chainAdd k v l ≠ [] := by
  cases l with
  | nil => simp [chainAdd]
  | cons c rest =>
    by_cases hc : c.1 = k <;> simp [chainAdd, hc]

theorem chainAdd_getLast (k v : String) (l : List (String × String)) :
    (chainAdd k v l).getLast? = some (k, v) := by
  induction l with
  | nil => rfl
  | cons c rest ih =>
    by_cases hc : c.1 = k
    · simp [chainAdd, hc]
    · rw [chainAdd]
      simp only [hc, if_false]
      rcases hrest : chainAdd k v rest with _ | ⟨d, t⟩
      · exact absurd hrest (chainAdd_ne_nil k v rest)
      · rw [List.getLast?_cons_cons, ← hrest, ih]

theorem chainAdd_mem (k v : String) (l : List (String × String)) :
    ∀ c ∈ chainAdd k v l, c = (k, v) ∨ c ∈ l := by
  induction l with
  | nil => simp [chainAdd]
  | cons d rest ih =>
    by_cases hd : d.1 = k
    · simp [chainAdd, hd]
    · intro c hc
      rw [chainAdd] at hc
      simp only [hd, if_false, List.mem_cons] at hc
      rcases hc with hc | hc
      · exact Or.inr (by simp [hc])
      · rcases ih c hc with h1 | h1
        · exact Or.inl h1
        · exact Or.inr (List.mem_cons_of_mem _ h1)

theorem mem_fst_chainAdd (k v : String) (l : List (String × String)) :
    k ∈ (chainAdd k v l).map Prod.fst := by
  induction l with
  | nil => simp [chainAdd]
  | cons c rest ih =>
    by_cases hc : c.1 = k <;> simp [chainAdd, hc, ih]

theorem chainAdd_of_not_mem (k v : String) (l : List (String × String))
    (hk : k ∉ l.map Prod.fst) : chainAdd k v l = l ++ [(k, v)] := by
  induction l with
  | nil => rfl
  | cons c rest ih =>
    simp only [List.map_cons, List.mem_cons] at hk
    push_neg at hk
    have hc : c.1 ≠ k := fun h => hk.1 h.symm
    rw [chainAdd, if_neg hc, ih hk.2, List.cons_append]

theorem chainAdd_nodup (k v : String) (l : List (String × String))
    (hl : (l.map Prod.fst).Nodup) :
    ((chainAdd k v l).map Prod.fst).Nodup := by
  induction l with
  | nil => simp [chainAdd]
  | cons c rest ih =>
    simp only [List.map_cons, List.nodup_cons] at hl
    by_cases hc : c.1 = k
    · simp [chainAdd, hc]
    · rw [chainAdd, if_neg hc]
      simp only [List.map_cons, List.nodup_cons]
      refine ⟨fun hmem => ?_, ih hl.2⟩
      rcases (List.mem_map.1 hmem) with ⟨d, hd, hfst⟩
      rcases chainAdd_mem k v rest d hd with h1 | h1
      · exact hc (by rw [← hfst, h1])
      · exact hl.1 (hfst ▸ List.mem_map_of_mem Prod.fst h1)

theorem chainAdd_idem (k v : String) (l : List (String × String)) :
    chainAdd k v (chainAdd k v l) = chainAdd k v l := by
  induction l with
  | nil => simp [chainAdd]
  | cons c rest ih =>
    by_cases hc : c.1 = k
    · simp [chainAdd, hc]
    · rw [chainAdd, if_neg hc, chainAdd, if_neg hc, ih]

theorem bucketAdd_idem (k v : String) (b : Bucket) :
    bucketAdd k v (bucketAdd k v b) = bucketAdd k v b := by
  by_cases hcond : b.has_entry = true ∧ b.key ≠ some k
  · have h1 : bucketAdd k v b = { b with chain := chainAdd k v b.chain } := by
      simp [bucketAdd, hcond]
    rw [h1]
    have h2 : ({ b with chain := chainAdd k v b.chain } : Bucket).has_entry = true ∧
        ({ b with chain := chainAdd k v b.chain } : Bucket).key ≠ some k :=
      ⟨hcond.1, hcond.2⟩
    simp only [bucketAdd, if_pos h2]
    simp [chainAdd_idem]
  · have h1 : bucketAdd k v b = ⟨some k, some v, true, []⟩ := by
      simp [bucketAdd, hcond]
    rw [h1]
    simp [bucketAdd]

/-! ### Lookup-walk lemmas -/

theorem keyEq_true (k : String) (o : Option String) (h : keyEq k o = true) :
    o = some k := by
  cases o with
  | none => simp [keyEq] at h
  | some s => simp [keyEq] at h; rw [h]

theorem keyEq_false_of_ne (k s : String) (h : s ≠ k) :
    keyEq k (some s) = false := by
  simp [keyEq, h]

theorem keyEq_self (k : String) : keyEq k (some k) = true := by
  simp [keyEq]

theorem walkGet_nil (k : String) (c : Option String × Option String) :
    walkGet k c [] = if keyEq k c.1 then c.2 else none := rfl

theorem walkGet_cons (k : String) (c d : Option String × Option String)
    (rest : List (Option String × Option String)) :
    walkGet k c (d :: rest)
      = if keyEq k c.1 then c.2 else walkGet k d rest := rfl

theorem walkGet_chainAdd (k v : String) (l : List (String × String)) :
    ∀ c : Option String × Option String, keyEq k c.1 = false →
      walkGet k c ((chainAdd k v l).map pairSome) = some v := by
  induction l with
  | nil =>
    intro c hc
    show walkGet k c ([(k, v)].map pairSome) = some v
    rw [List.map_cons, List.map_nil, walkGet_cons, if_neg (by simp [hc]),
      walkGet_nil, pairSome]
    simp [keyEq_self]
  | cons d rest ih =>
    intro c hc
    by_cases hd : d.1 = k
    · show walkGet k c ((if d.1 = k then [(k, v)]
        else d :: chainAdd k v rest).map pairSome) = some v
      rw [if_pos hd, List.map_cons, List.map_nil, walkGet_cons,
        if_neg (by simp [hc]), walkGet_nil, pairSome]
      simp [keyEq_self]
    · show walkGet k c ((if d.1 = k then [(k, v)]
        else d :: chainAdd k v rest).map pairSome) = some v
      rw [if_neg hd, List.map_cons, walkGet_cons, if_neg (by simp [hc])]
      exact ih (pairSome d) (by simp [pairSome, keyEq, hd])

theorem walkGet_append (q : String) (x : Option String × Option String)
    (hx : keyEq q x.1 = false) :
    ∀ (xs : List (Option String × Option String))
      (c : Option String × Option String),
      walkGet q c (xs ++ [x]) = walkGet q c xs := by
  intro xs
  induction xs with
  | nil => intro c; simp [walkGet, hx]
  | cons d rest ih => intro c; simp [walkGet, ih]

theorem walkGet_eq_some_mem (k val : String) :
    ∀ (l : List (Option String × Option String))
      (c : Option String × Option String),
      walkGet k c l = some val → ∃ cell ∈ c :: l, cell.1 = some k := by
  intro l
  induction l with
  | nil =>
    intro c hv
    by_cases hk : keyEq k c.1 = true
    · exact ⟨c, by simp, keyEq_true k c.1 hk⟩
    · rw [walkGet, if_neg hk] at hv
      exact absurd hv (by simp)
  | cons d rest ih =>
    intro c hv
    by_cases hk : keyEq k c.1 = true
    · exact ⟨c, by simp, keyEq_true k c.1 hk⟩
    · rw [walkGet, if_neg hk] at hv
      rcases ih d hv with ⟨cell, hmem, hcell⟩
      exact ⟨cell, by simpa using Or.inr (by simpa using hmem), hcell⟩

/-! ### Preservation of the table dimensions -/

theorem add_num_buckets (hfn : String → Nat) (h : hashmap) (k v : String) :
    (hashmap_add hfn h k v).num_buckets = h.num_buckets := rfl

theorem add_num_entries (hfn : String → Nat) (h : hashmap) (k v : String) :
    (hashmap_add hfn h k v).num_entries = h.num_entries := rfl

theorem add_data_length (hfn : String → Nat) (h : hashmap) (k v : String) :
    (hashmap_add hfn h k v).data.length = h.data.length := by
  simp [hashmap_add]

theorem foldl_add_preserve (hfn : String → Nat) :
    ∀ (ops : List (String × String)) (h : hashmap),
      (ops.foldl (fun h p => hashmap_add hfn h p.1 p.2) h).num_buckets
          = h.num_buckets ∧
      (ops.foldl (fun h p => hashmap_add hfn h p.1 p.2) h).data.length
          = h.data.length ∧
      (ops.foldl (fun h p => hashmap_add hfn h p.1 p.2) h).num_entries
          = h.num_entries := by
  intro ops
  induction ops with
  | nil => intro h; exact ⟨rfl, rfl, rfl⟩
  | cons p rest ih =>
    intro h
    have hrec := ih (hashmap_add hfn h p.1 p.2)
    refine ⟨?_, ?_, ?_⟩
    · rw [List.foldl_cons, hrec.1, add_num_buckets]
    · rw [List.foldl_cons, hrec.2.1, add_data_length]
    · rw [List.foldl_cons, hrec.2.2, add_num_entries]

theorem runOps_num_buckets (hfn : String → Nat) (ops : List (String × String)) :
    (runOps hfn ops).num_buckets = NUM_BUCKETS :=
  (foldl_add_preserve hfn ops Hashmap).1

theorem runOps_data_length (hfn : String → Nat) (ops : List (String × String)) :
    (runOps hfn ops).data.length = NUM_BUCKETS := by
  rw [runOps, (foldl_add_preserve hfn ops Hashmap).2.1]
  simp [Hashmap]

theorem runOps_num_entries (hfn : String → Nat) (ops : List (String × String)) :
    (runOps hfn ops).num_entries = 0 :=
  (foldl_add_preserve hfn ops Hashmap).2.2

/-! ### Lookup after insertion -/

theorem getD_set_self (l : List Bucket) (i : Nat) (b : Bucket)
    (hi : i < l.length) : (l.set i b).getD i emptyBucket = b := by
  rw [List.getD_eq_getElem?_getD, List.getElem?_set_self (by simpa using hi)]
  rfl

theorem getD_set_ne (l : List Bucket) (i j : Nat) (b : Bucket) (hij : i ≠ j) :
    (l.set i b).getD j emptyBucket = l.getD j emptyBucket := by
  rw [List.getD_eq_getElem?_getD, List.getElem?_set_ne hij,
    ← List.getD_eq_getElem?_getD]

theorem walkGet_bucketAdd (k v : String) (b : Bucket) :
    walkGet k ((bucketAdd k v b).key, (bucketAdd k v b).value)
      ((bucketAdd k v b).chain.map pairSome) = some v := by
  by_cases hcond : b.has_entry = true ∧ b.key ≠ some k
  · simp only [bucketAdd, if_pos hcond]
    have hkey : keyEq k b.key = false := by
      cases hb : b.key with
      | none => rfl
      | some s =>
        exact keyEq_false_of_ne k s (fun hs => hcond.2 (by rw [hb, hs]))
    exact walkGet_chainAdd k v b.chain (b.key, b.value) hkey
  · simp only [bucketAdd, if_neg hcond]
    simp [walkGet, keyEq]

theorem get_add_same (hfn : String → Nat) (h : hashmap) (k v : String)
    (hlen : hfn k % h.num_buckets < h.data.length) :
    hashmap_get hfn (hashmap_add hfn h k v) k = some v := by
  have hidx : hash hfn (hashmap_add hfn h k v) k = hash hfn h k := rfl
  rw [hashmap_get, hidx]
  have hdata : (hashmap_add hfn h k v).data
      = h.data.set (hash hfn h k)
          (bucketAdd k v (h.data.getD (hash hfn h k) emptyBucket)) := rfl
  have hlen2 : hash hfn h k < h.data.length := hlen
  rw [hdata, getD_set_self _ _ _ hlen2]
  exact walkGet_bucketAdd k v _

/-! ### The reachable-state invariant -/

theorem BucketWF_empty (hfn : String → Nat) (i : Nat) :
    BucketWF hfn i emptyBucket := by
  refine ⟨fun _ => rfl, ?_, ?_, ?_, ?_⟩ <;> simp [emptyBucket, rawBucketKeys]

theorem WF_Hashmap (hfn : String → Nat) : WF hfn Hashmap := by
  refine ⟨rfl, by simp [Hashmap], ?_⟩
  intro i hi
  have hrep : Hashmap.data.get ⟨i, hi⟩ = emptyBucket := by
    simp [Hashmap]
  rw [hrep]
  exact BucketWF_empty hfn i

theorem BucketWF_bucketAdd (hfn : String → Nat) (k v : String) (i : Nat)
    (b : Bucket) (hb : BucketWF hfn i b) (hk : hfn k % NUM_BUCKETS = i) :
    BucketWF hfn i (bucketAdd k v b) := by
  obtain ⟨h1, h2, h3, h4, h5⟩ := hb
  by_cases hcond : b.has_entry = true ∧ b.key ≠ some k
  · have hbeq : bucketAdd k v b = { b with chain := chainAdd k v b.chain } := by
      simp [bucketAdd, hcond]
    rw [hbeq]
    refine ⟨?_, ?_, ?_, ?_, ?_⟩
    · intro hfalse
      have hfe : b.has_entry = false := hfalse
      rw [hcond.1] at hfe
      simp at hfe
    · intro k0 hk0
      exact h2 k0 hk0
    · intro c hc
      have hc2 : c ∈ chainAdd k v b.chain := hc
      rcases chainAdd_mem k v b.chain c hc2 with hck | hck
      · rw [hck]; exact hk
      · exact h3 c hck
    · rcases hbkey : b.key with _ | k0
      · exact absurd hbkey (h5 hcond.1)
      · have h4b : (k0 :: b.chain.map Prod.fst).Nodup := by
          have hre : rawBucketKeys b = k0 :: b.chain.map Prod.fst := by
            simp [rawBucketKeys, hbkey]
          rwa [hre] at h4
        have hk0k : k0 ≠ k := fun hh => hcond.2 (by rw [hbkey, hh])
        have hraw : rawBucketKeys
              (⟨some k0, b.value, b.has_entry, chainAdd k v b.chain⟩ : Bucket)
              = k0 :: (chainAdd k v b.chain).map Prod.fst := by
          simp [rawBucketKeys]
        rw [hraw]
        refine List.nodup_cons.2 ⟨?_, chainAdd_nodup k v b.chain
            (List.nodup_cons.1 h4b).2⟩
        intro hmem
        rcases List.mem_map.1 hmem with ⟨d, hd, hfst⟩
        rcases chainAdd_mem k v b.chain d hd with hdk | hdk
        · exact hk0k (by rw [← hfst, hdk])
        · exact (List.nodup_cons.1 h4b).1
            (hfst ▸ List.mem_map_of_mem Prod.fst hdk)
    · intro _
      exact h5 hcond.1
  · have hbeq : bucketAdd k v b = ⟨some k, some v, true, []⟩ := by
      simp [bucketAdd, hcond]
    rw [hbeq]
    refine ⟨?_, ?_, ?_, ?_, ?_⟩
    · intro hfalse; simp at hfalse
    · intro k0 hk0
      have : k0 = k := by simpa using hk0.symm
      rw [this]; exact hk
    · intro c hc; simp at hc
    · simp [rawBucketKeys]
    · intro _; simp

theorem WF_add (hfn : String → Nat) (h : hashmap) (k v : String)
    (hw : WF hfn h) : WF hfn (hashmap_add hfn h k v) := by
  obtain ⟨hnb, hlen, hbw⟩ := hw
  have hidx : hash hfn h k < h.data.length := by
    rw [hash, hnb, hlen]
    exact Nat.mod_lt _ (by norm_num [NUM_BUCKETS])
  refine ⟨hnb, by rw [add_data_length]; exact hlen, ?_⟩
  intro i hi
  have hi0 : i < h.data.length := by rwa [add_data_length] at hi
  have hdata : (hashmap_add hfn h k v).data
      = h.data.set (hash hfn h k)
          (bucketAdd k v (h.data.getD (hash hfn h k) emptyBucket)) := rfl
  have hgetD : (hashmap_add hfn h k v).data.get ⟨i, hi⟩
      = (hashmap_add hfn h k v).data.getD i emptyBucket := by
    rw [List.getD_eq_getElem?_getD, List.getElem?_eq_getElem hi]
    rfl
  by_cases hieq : i = hash hfn h k
  · rw [hgetD]
    have hset : (hashmap_add hfn h k v).data.getD i emptyBucket
        = bucketAdd k v (h.data.getD (hash hfn h k) emptyBucket) := by
      rw [hdata, hieq]
      exact getD_set_self _ _ _ hidx
    rw [hset]
    have hg2 : h.data.getD (hash hfn h k) emptyBucket
        = h.data.get ⟨hash hfn h k, hidx⟩ := by
      rw [List.getD_eq_getElem?_getD, List.getElem?_eq_getElem hidx]
      rfl
    rw [hg2, hieq]
    refine BucketWF_bucketAdd hfn k v (hash hfn h k) _ (hbw _ hidx) ?_
    rw [← hnb]
    rfl
  · rw [hgetD]
    have hset : (hashmap_add hfn h k v).data.getD i emptyBucket
        = h.data.getD i emptyBucket := by
      rw [hdata]
      exact getD_set_ne _ _ _ _ (fun hh => hieq hh.symm)
    rw [hset]
    have hg2 : h.data.getD i emptyBucket = h.data.get ⟨i, hi0⟩ := by
      rw [List.getD_eq_getElem?_getD, List.getElem?_eq_getElem hi0]
      rfl
    rw [hg2]
    exact hbw i hi0

theorem WF_foldl (hfn : String → Nat) :
    ∀ (ops : List (String × String)) (h : hashmap), WF hfn h →
      WF hfn (ops.foldl (fun h p => hashmap_add hfn h p.1 p.2) h) := by
  intro ops
  induction ops with
  | nil => intro h hw; exact hw
  | cons p rest ih =>
    intro h hw
    exact ih (hashmap_add hfn h p.1 p.2) (WF_add hfn h p.1 p.2 hw)

theorem WF_runOps (hfn : String → Nat) (ops : List (String × String)) :
    WF hfn (runOps hfn ops) :=
  WF_foldl hfn ops Hashmap (WF_Hashmap hfn)

/-! ### Stored keys -/

theorem getD_eq_get (l : List Bucket) (i : Nat) (hi : i < l.length) :
    l.getD i emptyBucket = l.get ⟨i, hi⟩ := by
  rw [List.getD_eq_getElem?_getD, List.getElem?_eq_getElem hi]
  rfl

theorem getD_eq_empty (l : List Bucket) (i : Nat) (hi : ¬ i < l.length) :
    l.getD i emptyBucket = emptyBucket := by
  rw [List.getD_eq_getElem?_getD, List.getElem?_eq_none (by omega)]
  rfl

theorem raw_subset_stored (h : hashmap) (i : Nat) (hi : i < h.data.length) :
    ∀ a ∈ rawBucketKeys (h.data.get ⟨i, hi⟩), a ∈ storedKeys h := by
  intro a ha
  rw [storedKeys]
  exact List.mem_flatten.2 ⟨rawBucketKeys (h.data.get ⟨i, hi⟩),
    List.mem_map_of_mem rawBucketKeys (h.data.get_mem _ _), ha⟩

theorem rawD_subset_stored (h : hashmap) (i : Nat) :
    ∀ a ∈ rawBucketKeys (h.data.getD i emptyBucket), a ∈ storedKeys h := by
  intro a ha
  by_cases hi : i < h.data.length
  · rw [getD_eq_get _ _ hi] at ha
    exact raw_subset_stored h i hi a ha
  · rw [getD_eq_empty _ _ hi] at ha
    simp [rawBucketKeys, emptyBucket] at ha

theorem get_mem_stored (hfn : String → Nat) (h : hashmap) (q val : String)
    (hq : hashmap_get hfn h q = some val) : q ∈ storedKeys h := by
  rw [hashmap_get] at hq
  rcases walkGet_eq_some_mem q val _ _ hq with ⟨cell, hmem, hcell⟩
  apply rawD_subset_stored h (hash hfn h q)
  rcases List.mem_cons.1 hmem with hh | hh
  · have hbkey : (h.data.getD (hash hfn h q) emptyBucket).key = some q := by
      rw [← hcell, hh]
    rw [rawBucketKeys, hbkey]
    simp
  · rcases List.mem_map.1 hh with ⟨c, hc, hcp⟩
    have hcq : c.1 = q := by
      have : some c.1 = some q := by
        rw [← hcell, ← hcp, pairSome]
      simpa using this
    rw [rawBucketKeys]
    apply List.mem_append_right
    have hcm : c.1
        ∈ (h.data.getD (hash hfn h q) emptyBucket).chain.map Prod.fst :=
      List.mem_map_of_mem Prod.fst hc
    rwa [hcq] at hcm

theorem rawBucketKeys_bucketAdd (k v : String) (b : Bucket) :
    ∀ a ∈ rawBucketKeys (bucketAdd k v b), a = k ∨ a ∈ rawBucketKeys b := by
  intro a ha
  by_cases hcond : b.has_entry = true ∧ b.key ≠ some k
  · have hbeq : bucketAdd k v b = { b with chain := chainAdd k v b.chain } := by
      simp [bucketAdd, hcond]
    rw [hbeq, rawBucketKeys] at ha
    rcases List.mem_append.1 ha with hh | hh
    · right
      rw [rawBucketKeys]
      exact List.mem_append_left _ hh
    · rcases List.mem_map.1 hh with ⟨d, hd, hfst⟩
      rcases chainAdd_mem k v b.chain d hd with hdk | hdk
      · left; rw [← hfst, hdk]
      · right
        rw [rawBucketKeys]
        exact List.mem_append_right _ (hfst ▸ List.mem_map_of_mem Prod.fst hdk)
  · have hbeq : bucketAdd k v b = ⟨some k, some v, true, []⟩ := by
      simp [bucketAdd, hcond]
    rw [hbeq] at ha
    simp [rawBucketKeys] at ha
    exact Or.inl ha

theorem storedKeys_add_subset (hfn : String → Nat) (h : hashmap)
    (k v : String) :
    ∀ a ∈ storedKeys (hashmap_add hfn h k v), a = k ∨ a ∈ storedKeys h := by
  intro a ha
  rw [storedKeys] at ha
  rcases List.mem_flatten.1 ha with ⟨l, hl, hal⟩
  rcases List.mem_map.1 hl with ⟨b, hbmem, hbl⟩
  rcases List.mem_or_eq_of_mem_set hbmem with hbm | hbm
  · right
    rw [storedKeys]
    exact List.mem_flatten.2 ⟨l, hbl ▸ List.mem_map_of_mem rawBucketKeys hbm,
      hal⟩
  · rw [← hbl, hbm] at hal
    rcases rawBucketKeys_bucketAdd k v _ a hal with hh | hh
    · exact Or.inl hh
    · exact Or.inr (rawD_subset_stored h _ a hh)

set_option maxRecDepth 4000 in
theorem storedKeys_Hashmap : storedKeys Hashmap = [] := by decide

theorem storedKeys_foldl_subset (hfn : String → Nat) :
    ∀ (ops : List (String × String)) (h : hashmap),
      ∀ a ∈ storedKeys (ops.foldl (fun h p => hashmap_add hfn h p.1 p.2) h),
        a ∈ ops.map Prod.fst ∨ a ∈ storedKeys h := by
  intro ops
  induction ops with
  | nil => intro h a ha; exact Or.inr ha
  | cons p rest ih =>
    intro h a ha
    rcases ih (hashmap_add hfn h p.1 p.2) a ha with hh | hh
    · left
      rw [List.map_cons]
      exact List.mem_cons_of_mem _ hh
    · rcases storedKeys_add_subset hfn h p.1 p.2 a hh with hh2 | hh2
      · left
        rw [List.map_cons, hh2]
        exact List.mem_cons_self _ _
      · exact Or.inr hh2

theorem storedKeys_runOps_subset (hfn : String → Nat)
    (ops : List (String × String)) :
    ∀ a ∈ storedKeys (runOps hfn ops), a ∈ ops.map Prod.fst := by
  intro a ha
  rcases storedKeys_foldl_subset hfn ops Hashmap a ha with hh | hh
  · exact hh
  · rw [storedKeys_Hashmap] at hh
    simp at hh

/-! ### Lookup of other keys is unchanged by inserting a fresh key -/

theorem get_add_other (hfn : String → Nat) (h : hashmap) (k v q : String)
    (hw : WF hfn h) (hknew : k ∉ storedKeys h) (hqk : q ≠ k) :
    hashmap_get hfn (hashmap_add hfn h k v) q = hashmap_get hfn h q := by
  obtain ⟨hnb, hlen, hbw⟩ := hw
  have hidxk : hash hfn h k < h.data.length := by
    rw [hash, hnb, hlen]
    exact Nat.mod_lt _ (by norm_num [NUM_BUCKETS])
  have hashq : hash hfn (hashmap_add hfn h k v) q = hash hfn h q := rfl
  have hdata : (hashmap_add hfn h k v).data
      = h.data.set (hash hfn h k)
          (bucketAdd k v (h.data.getD (hash hfn h k) emptyBucket)) := rfl
  set b := h.data.getD (hash hfn h k) emptyBucket with hbdef
  have hbwf : BucketWF hfn (hash hfn h k) b := by
    rw [hbdef, getD_eq_get _ _ hidxk]
    exact hbw _ hidxk
  have hkraw : k ∉ rawBucketKeys b :=
    fun hmem => hknew (rawD_subset_stored h _ k (hbdef ▸ hmem))
  rw [hashmap_get, hashmap_get, hashq, hdata]
  by_cases hiq : hash hfn h q = hash hfn h k
  · rw [hiq, ← hbdef, getD_set_self _ _ _ hidxk]
    by_cases hcond : b.has_entry = true ∧ b.key ≠ some k
    · have hbeq : bucketAdd k v b
          = { b with chain := chainAdd k v b.chain } := by
        simp [bucketAdd, hcond]
      rw [hbeq]
      have hknotchain : k ∉ b.chain.map Prod.fst :=
        fun hmem => hkraw (List.mem_append_right _ hmem)
      show walkGet q (b.key, b.value)
          ((chainAdd k v b.chain).map pairSome) = _
      rw [chainAdd_of_not_mem k v _ hknotchain, List.map_append,
        List.map_cons, List.map_nil]
      exact walkGet_append q (pairSome (k, v))
        (keyEq_false_of_ne q k (Ne.symm hqk)) _ _
    · rcases not_and_or.1 hcond with hne | hkey
      · have hbe : b.has_entry = false := by
          rcases hbool : b.has_entry
          · rfl
          · exact absurd hbool hne
        have hbempty : b = emptyBucket := hbwf.1 hbe
        have hbeq : bucketAdd k v b = ⟨some k, some v, true, []⟩ := by
          simp [bucketAdd, hcond]
        rw [hbeq, hbempty]
        show walkGet q (some k, some v) [] = walkGet q (none, none) []
        rw [walkGet_nil, walkGet_nil, keyEq_false_of_ne q k (Ne.symm hqk)]
        simp [keyEq]
      · have hbkey : b.key = some k := not_not.1 hkey
        exact absurd (by
          rw [rawBucketKeys, hbkey]
          simp : k ∈ rawBucketKeys b) hkraw
  · rw [getD_set_ne _ _ _ _ (fun hh => hiq hh.symm)]

/-! ### Global distinctness of stored keys -/

theorem mem_raw_hash (hfn : String → Nat) (i : Nat) (b : Bucket)
    (hb : BucketWF hfn i b) :
    ∀ a ∈ rawBucketKeys b, hfn a % NUM_BUCKETS = i := by
  intro a ha
  rw [rawBucketKeys] at ha
  rcases List.mem_append.1 ha with hh | hh
  · rcases hbk : b.key with _ | k0
    · rw [hbk] at hh
      simp at hh
    · rw [hbk] at hh
      simp at hh
      rw [hh]
      exact hb.2.1 k0 hbk
  · rcases List.mem_map.1 hh with ⟨c, hc, hfst⟩
    rw [← hfst]
    exact hb.2.2.1 c hc

theorem storedKeys_nodup (hfn : String → Nat) (h : hashmap) (hw : WF hfn h) :
    (storedKeys h).Nodup := by
  obtain ⟨hnb, hlen, hbw⟩ := hw
  rw [storedKeys, List.nodup_flatten]
  constructor
  · intro l hl
    rcases List.mem_map.1 hl with ⟨b, hb, hbl⟩
    rcases List.mem_iff_get.1 hb with ⟨⟨i, hi⟩, hget⟩
    rw [← hbl, ← hget]
    exact (hbw i hi).2.2.2.1
  · rw [List.pairwise_iff_get]
    intro i j hij
    have hi2 : i.1 < h.data.length := by
      have := i.2
      simpa using this
    have hj2 : j.1 < h.data.length := by
      have := j.2
      simpa using this
    have hgi : (h.data.map rawBucketKeys).get i
        = rawBucketKeys (h.data.get ⟨i.1, hi2⟩) := by
      simp [List.get_eq_getElem]
    have hgj : (h.data.map rawBucketKeys).get j
        = rawBucketKeys (h.data.get ⟨j.1, hj2⟩) := by
      simp [List.get_eq_getElem]
    rw [hgi, hgj]
    intro a hai haj
    have h1 := mem_raw_hash hfn i.1 _ (hbw i.1 hi2) a hai
    have h2 := mem_raw_hash hfn j.1 _ (hbw j.1 hj2) a haj
    have : i.1 = j.1 := by rw [← h1, h2]
    exact absurd this (Nat.ne_of_lt hij)

/-! ### Keys and entries versus stored keys, under the invariant -/

theorem bucketKeys_eq_raw (hfn : String → Nat) (i : Nat) (b : Bucket)
    (hb : BucketWF hfn i b) : bucketKeys b = (rawBucketKeys b).map some := by
  rcases hbool : b.has_entry
  · rw [hb.1 hbool]
    rfl
  · rcases hbk : b.key with _ | k0
    · exact absurd hbk (hb.2.2.2.2 hbool)
    · rw [bucketKeys, if_pos hbool, rawBucketKeys, hbk]
      simp

theorem bucketEntries_fst_eq_raw (hfn : String → Nat) (i : Nat) (b : Bucket)
    (hb : BucketWF hfn i b) :
    (bucketEntries b).map Prod.fst = (rawBucketKeys b).map some := by
  rcases hbool : b.has_entry
  · rw [hb.1 hbool]
    rfl
  · rcases hbk : b.key with _ | k0
    · exact absurd hbk (hb.2.2.2.2 hbool)
    · rw [bucketEntries, if_pos hbool, rawBucketKeys, hbk]
      simp [pairSome]

theorem data_forall_of_WF (hfn : String → Nat) (h : hashmap) (hw : WF hfn h)
    (P : Bucket → Prop) (hP : ∀ i b, BucketWF hfn i b → P b) :
    ∀ b ∈ h.data, P b := by
  intro b hb
  rcases List.mem_iff_get.1 hb with ⟨⟨i, hi⟩, hget⟩
  exact hget ▸ hP i _ (hw.2.2 i hi)

theorem hashmap_keys_eq_stored (hfn : String → Nat) (h : hashmap)
    (hw : WF hfn h) : hashmap_keys h = (storedKeys h).map some := by
  rw [hashmap_keys, storedKeys, List.map_flatten, List.map_map]
  congr 1
  apply List.map_congr_left
  intro b hb
  exact data_forall_of_WF hfn h hw
    (fun b => bucketKeys b = (rawBucketKeys b).map some)
    (fun i b hbw => bucketKeys_eq_raw hfn i b hbw) b hb

theorem hashmap_entries_fst_eq_stored (hfn : String → Nat) (h : hashmap)
    (hw : WF hfn h) :
    (hashmap_entries h).map Prod.fst = (storedKeys h).map some := by
  rw [hashmap_entries, storedKeys, List.map_flatten, List.map_map,
    List.map_flatten, List.map_map]
  congr 1
  apply List.map_congr_left
  intro b hb
  exact data_forall_of_WF hfn h hw
    (fun b => (bucketEntries b).map Prod.fst = (rawBucketKeys b).map some)
    (fun i b hbw => bucketEntries_fst_eq_raw hfn i b hbw) b hb

theorem hashmap_entries_length_eq_stored (hfn : String → Nat) (h : hashmap)
    (hw : WF hfn h) :
    (hashmap_entries h).length = (storedKeys h).length := by
  have hfst := hashmap_entries_fst_eq_stored hfn h hw
  have h1 : (hashmap_entries h).length
      = ((hashmap_entries h).map Prod.fst).length := by simp
  rw [h1, hfst]
  simp

theorem hashmap_keys_length_eq_entries (hfn : String → Nat) (h : hashmap)
    (hw : WF hfn h) :
    (hashmap_keys h).length = (hashmap_entries h).length := by
  rw [hashmap_keys_eq_stored hfn h hw, hashmap_entries_length_eq_stored hfn h hw]
  simp

/-! ### Inserting a list of fresh, pairwise-distinct keys -/

theorem runAdd_all (hfn : String → Nat) :
    ∀ (ps : List (String × String)) (h : hashmap), WF hfn h →
      (ps.map Prod.fst).Nodup → (∀ p ∈ ps, p.1 ∉ storedKeys h) →
      (∀ p ∈ ps, hashmap_get hfn
          (ps.foldl (fun h p => hashmap_add hfn h p.1 p.2) h) p.1
            = some p.2) ∧
      (∀ q, q ∉ ps.map Prod.fst → hashmap_get hfn
          (ps.foldl (fun h p => hashmap_add hfn h p.1 p.2) h) q
            = hashmap_get hfn h q) := by
  intro ps
  induction ps with
  | nil =>
    intro h hw _ _
    exact ⟨by simp, fun q _ => rfl⟩
  | cons p rest ih =>
    intro h hw hnodup hnew
    have hnodup2 : (p.1 :: rest.map Prod.fst).Nodup := by simpa using hnodup
    have hw2 : WF hfn (hashmap_add hfn h p.1 p.2) := WF_add _ _ _ _ hw
    have hnew2 : ∀ r ∈ rest, r.1 ∉ storedKeys (hashmap_add hfn h p.1 p.2) := by
      intro r hr hmem
      rcases storedKeys_add_subset hfn h p.1 p.2 r.1 hmem with hh | hh
      · exact (List.nodup_cons.1 hnodup2).1
          (hh ▸ List.mem_map_of_mem Prod.fst hr)
      · exact hnew r (List.mem_cons_of_mem _ hr) hh
    obtain ⟨ihall, ihframe⟩ := ih (hashmap_add hfn h p.1 p.2) hw2
      (List.nodup_cons.1 hnodup2).2 hnew2
    constructor
    · intro r hr
      rcases List.mem_cons.1 hr with hh | hh
      · rw [List.foldl_cons, hh, ihframe p.1 (List.nodup_cons.1 hnodup2).1]
        apply get_add_same
        obtain ⟨hnb, hlen, _⟩ := hw
        rw [hnb, hlen]
        exact Nat.mod_lt _ (by norm_num [NUM_BUCKETS])
      · rw [List.foldl_cons]
        exact ihall r hh
    · intro q hq
      have hq1 : q ∉ rest.map Prod.fst := fun hh =>
        hq (by rw [List.map_cons]; exact List.mem_cons_of_mem _ hh)
      have hqp : q ≠ p.1 := fun hh =>
        hq (by rw [List.map_cons, hh]; exact List.mem_cons_self _ _)
      rw [List.foldl_cons, ihframe q hq1]
      exact get_add_other hfn h p.1 p.2 q hw
        (hnew p (List.mem_cons_self _ _)) hqp

/-! ### Idempotence of insertion -/

theorem hashmap_add_idem (hfn : String → Nat) (h : hashmap) (k v : String) :
    hashmap_add hfn (hashmap_add hfn h k v) k v = hashmap_add hfn h k v := by
  have hdata2 : (hashmap_add hfn (hashmap_add hfn h k v) k v).data
      = (hashmap_add hfn h k v).data := by
    show ((hashmap_add hfn h k v).data.set (hash hfn h k)
        (bucketAdd k v ((hashmap_add hfn h k v).data.getD (hash hfn h k)
          emptyBucket)))
      = (hashmap_add hfn h k v).data
    by_cases hidx : hash hfn h k < h.data.length
    · show ((h.data.set (hash hfn h k)
          (bucketAdd k v (h.data.getD (hash hfn h k) emptyBucket))).set
            (hash hfn h k)
          (bucketAdd k v ((h.data.set (hash hfn h k)
            (bucketAdd k v (h.data.getD (hash hfn h k)
              emptyBucket))).getD (hash hfn h k) emptyBucket))) = _
      rw [getD_set_self _ _ _ hidx, bucketAdd_idem, List.set_set]
      rfl
    · have hlenadd : ¬ hash hfn h k
          < (hashmap_add hfn h k v).data.length := by
        rwa [add_data_length]
      rw [getD_eq_empty _ _ hlenadd]
      have hd : (hashmap_add hfn h k v).data
          = h.data.set (hash hfn h k)
            (bucketAdd k v (h.data.getD (hash hfn h k) emptyBucket)) := rfl
      rw [hd, getD_eq_empty _ _ hidx, List.set_set]
  have hrec : hashmap_add hfn (hashmap_add hfn h k v) k v
      = { hashmap_add hfn h k v with
          data := (hashmap_add hfn (hashmap_add hfn h k v) k v).data } := rfl
  rw [hrec, hdata2]

/-! ### The inserted entry ends its chain -/

theorem getLast?_map_pairSome (l : List (String × String)) :
    (l.map pairSome).getLast? = Option.map pairSome l.getLast? := by
  induction l with
  | nil => rfl
  | cons c rest ih =>
    cases rest with
    | nil => rfl
    | cons d t =>
      rw [List.map_cons, List.map_cons, List.getLast?_cons_cons,
        ← List.map_cons, ih, List.getLast?_cons_cons]

theorem cellsOf_bucketAdd_getLast (k v : String) (b : Bucket) :
    (cellsOf (bucketAdd k v b)).getLast? = some (some k, some v) := by
  by_cases hcond : b.has_entry = true ∧ b.key ≠ some k
  · have hbeq : bucketAdd k v b = { b with chain := chainAdd k v b.chain } := by
      simp [bucketAdd, hcond]
    rw [hbeq, cellsOf]
    have hmap : ((chainAdd k v b.chain).map pairSome).getLast?
        = some (pairSome (k, v)) := by
      rw [getLast?_map_pairSome, chainAdd_getLast]
      rfl
    show ((b.key, b.value) :: (chainAdd k v b.chain).map pairSome).getLast?
        = some (some k, some v)
    rcases hl : (chainAdd k v b.chain).map pairSome with _ | ⟨d, t⟩
    · exact absurd (List.map_eq_nil_iff.1 hl) (chainAdd_ne_nil k v b.chain)
    · rw [List.getLast?_cons_cons, ← hl, hmap]
      rfl
  · have hbeq : bucketAdd k v b = ⟨some k, some v, true, []⟩ := by
      simp [bucketAdd, hcond]
    rw [hbeq]
    rfl

/-! ### Counting entries with a fixed key -/

theorem filter_fst_length (k : String) :
    ∀ l : List (Option String × Option String),
      (l.filter (fun e => e.1 = some k)).length
        = ((l.map Prod.fst).filter (fun a => a = some k)).length := by
  intro l
  induction l with
  | nil => rfl
  | cons e t ih =>
    rw [List.map_cons, List.filter_cons, List.filter_cons]
    by_cases he : e.1 = some k
    · simp only [he]
      rw [if_pos (by simp), if_pos (by simp)]
      simp [ih]
    · rw [if_neg (by simpa using he), if_neg (by simpa using he)]
      exact ih

theorem filter_map_some_length (k : String) :
    ∀ l : List String,
      ((l.map some).filter (fun a => a = some k)).length
        = (l.filter (fun a => a = k)).length := by
  intro l
  induction l with
  | nil => rfl
  | cons a t ih =>
    rw [List.map_cons, List.filter_cons, List.filter_cons]
    by_cases ha : a = k
    · rw [if_pos (by simp [ha]), if_pos (by simp [ha])]
      simp [ih]
    · rw [if_neg (by simpa using ha), if_neg (by simpa using ha)]
      exact ih

theorem filter_eq_nil_of_not_mem (k : String) (l : List String)
    (hk : k ∉ l) : l.filter (fun a => a = k) = [] := by
  rw [List.filter_eq_nil_iff]
  intro a ha
  simp only [decide_eq_true_eq]
  exact fun hak => hk (hak ▸ ha)

theorem nodup_filter_eq_length_one (k : String) :
    ∀ l : List String, l.Nodup → k ∈ l →
      (l.filter (fun a => a = k)).length = 1 := by
  intro l
  induction l with
  | nil => intro _ hmem; simp at hmem
  | cons b t ih =>
    intro hnd hmem
    rw [List.filter_cons]
    by_cases hbk : b = k
    · rw [if_pos (by simp [hbk])]
      have hknt : k ∉ t := fun hkt => (List.nodup_cons.1 hnd).1 (hbk ▸ hkt)
      rw [filter_eq_nil_of_not_mem k t hknt]
      rfl
    · rw [if_neg (by simpa using hbk)]
      rcases List.mem_cons.1 hmem with hh | hh
      · exact absurd hh.symm hbk
      · exact ih (List.nodup_cons.1 hnd).2 hh

/-! ## Claim theorems -/

set_option maxRecDepth 4000 in
/-- C1: the claim says that after any sequence of puts, `get(k)` returns the
most recent `put(k, _)` value for every key `k` that was put, also in the
presence of colliding keys.  The code refutes this: with two colliding keys
`"a"` and `"b"` (both in bucket 0 under `hconst`), after
`put("a","1"); put("b","2")` the key `"b"` is retrievable with value `"2"`,
but re-putting `"a"` (`put("a","3")`) sets the overwritten head entry's
`next` to `NULL` (line 191 of `hashmap.c`), disconnecting `"b"`:
`get("b")` then returns `NULL` instead of `"2"`. -/
theorem overwrite_disconnects_colliding_key :
    hashmap_get hconst (runOps hconst [("a", "1"), ("b", "2")]) "b"
        = some "2" ∧
    hashmap_get hconst (runOps hconst [("a", "1"), ("b", "2"), ("a", "3")])
        "b" = none ∧
    hashmap_get hconst (runOps hconst [("a", "1"), ("b", "2"), ("a", "3")])
        "a" = some "3" ∧
    hash hconst Hashmap "a" = hash hconst Hashmap "b" :=
  ⟨by decide, by decide, by decide, by decide⟩

/-- C2: immediately after `put(k, v)` on any reachable table, `get(k)`
returns `v`; the table then holds exactly one entry whose key equals `k`
(content equality); and no bucket of a reachable table ever holds two
entries with the same key. -/
theorem put_get_unique_entry (hfn : String → Nat)
    (ops : List (String × String)) (k v : String) :
    hashmap_get hfn (hashmap_add hfn (runOps hfn ops) k v) k = some v ∧
    countKeyEq (hashmap_add hfn (runOps hfn ops) k v) k = 1 ∧
    ∀ b ∈ (runOps hfn ops).data, (rawBucketKeys b).Nodup := by
  have hw := WF_runOps hfn ops
  have hw2 := WF_add hfn (runOps hfn ops) k v hw
  have hget : hashmap_get hfn (hashmap_add hfn (runOps hfn ops) k v) k
      = some v := by
    apply get_add_same
    rw [hw.1, hw.2.1]
    exact Nat.mod_lt _ (by norm_num [NUM_BUCKETS])
  refine ⟨hget, ?_, ?_⟩
  · rw [countKeyEq, filter_fst_length k,
      hashmap_entries_fst_eq_stored hfn _ hw2, filter_map_some_length k]
    exact nodup_filter_eq_length_one k _ (storedKeys_nodup hfn _ hw2)
      (get_mem_stored hfn _ k v hget)
  · exact data_forall_of_WF hfn _ hw (fun b => (rawBucketKeys b).Nodup)
      (fun i b hb => hb.2.2.2.1)

/-- C3: starting from a fresh table, putting a list of pairwise-distinct
keys that all hash to one bucket index `i`, each exactly once, leaves every
one of them retrievable with its own value. -/
theorem colliding_fresh_keys_all_retrievable (hfn : String → Nat)
    (ps : List (String × String)) (i : Nat)
    (hnd : (ps.map Prod.fst).Nodup)
    (_hbkt : ∀ p ∈ ps, hfn p.1 % NUM_BUCKETS = i) :
    ∀ p ∈ ps, hashmap_get hfn (runOps hfn ps) p.1 = some p.2 := by
  have hnew : ∀ p ∈ ps, p.1 ∉ storedKeys Hashmap := by
    intro p _
    rw [storedKeys_Hashmap]
    simp
  rw [runOps]
  exact (runAdd_all hfn ps Hashmap (WF_Hashmap hfn) hnd hnew).1

set_option maxRecDepth 4000 in
/-- Witness for C3 at a concrete input: three distinct keys, all in bucket 0
under `hconst`, inserted once each, are all retrievable. -/
theorem colliding_fresh_keys_all_retrievable_witness :
    ((([("a", "1"), ("b", "2"), ("c", "3")] : List (String × String)).map
        Prod.fst).Nodup ∧
      (∀ p ∈ ([("a", "1"), ("b", "2"), ("c", "3")] :
          List (String × String)), hconst p.1 % NUM_BUCKETS = 0)) ∧
    hashmap_get hconst
        (runOps hconst [("a", "1"), ("b", "2"), ("c", "3")]) "a"
      = some "1" ∧
    hashmap_get hconst
        (runOps hconst [("a", "1"), ("b", "2"), ("c", "3")]) "b"
      = some "2" ∧
    hashmap_get hconst
        (runOps hconst [("a", "1"), ("b", "2"), ("c", "3")]) "c"
      = some "3" :=
  ⟨⟨by decide, by decide⟩,
    colliding_fresh_keys_all_retrievable hconst
      [("a", "1"), ("b", "2"), ("c", "3")] 0 (by decide) (by decide)
      ("a", "1") (by decide),
    colliding_fresh_keys_all_retrievable hconst
      [("a", "1"), ("b", "2"), ("c", "3")] 0 (by decide) (by decide)
      ("b", "2") (by decide),
    colliding_fresh_keys_all_retrievable hconst
      [("a", "1"), ("b", "2"), ("c", "3")] 0 (by decide) (by decide)
      ("c", "3") (by decide)⟩

/-- C4: `put(k, v); put(k, v)` produces a table that is literally equal to
the one produced by a single `put(k, v)` — in particular every `get`, the
`keys()` sequence and the entry count agree — for every table value, not
just reachable ones. -/
theorem put_idempotent (hfn : String → Nat) (h : hashmap) (k v : String) :
    hashmap_add hfn (hashmap_add hfn h k v) k v = hashmap_add hfn h k v ∧
    (∀ q, hashmap_get hfn (hashmap_add hfn (hashmap_add hfn h k v) k v) q
      = hashmap_get hfn (hashmap_add hfn h k v) q) ∧
    hashmap_keys (hashmap_add hfn (hashmap_add hfn h k v) k v)
      = hashmap_keys (hashmap_add hfn h k v) ∧
    (hashmap_add hfn (hashmap_add hfn h k v) k v).num_entries
      = (hashmap_add hfn h k v).num_entries := by
  have heq := hashmap_add_idem hfn h k v
  exact ⟨heq, fun q => by rw [heq], by rw [heq], by rw [heq]⟩

/-- C5: a key that was never inserted is absent: `get` returns `NULL` on it
after any sequence of puts, and on the fresh table. -/
theorem get_missing_key_absent (hfn : String → Nat)
    (ops : List (String × String)) (k : String)
    (hk : k ∉ ops.map Prod.fst) :
    hashmap_get hfn (runOps hfn ops) k = none ∧
    hashmap_get hfn Hashmap k = none := by
  constructor
  · rcases hg : hashmap_get hfn (runOps hfn ops) k with _ | val
    · rfl
    · exact absurd
        (storedKeys_runOps_subset hfn ops k (get_mem_stored hfn _ k val hg))
        hk
  · rcases hg : hashmap_get hfn Hashmap k with _ | val
    · rfl
    · have hmem := get_mem_stored hfn Hashmap k val hg
      rw [storedKeys_Hashmap] at hmem
      simp at hmem

/-- Witness for C5 at a concrete input. -/
theorem get_missing_key_absent_witness :
    "zz" ∉ ([("a", "1")] : List (String × String)).map Prod.fst ∧
    hashmap_get hconst (runOps hconst [("a", "1")]) "zz" = none ∧
    hashmap_get hconst Hashmap "zz" = none :=
  ⟨by decide,
    (get_missing_key_absent hconst [("a", "1")] "zz" (by decide)).1,
    (get_missing_key_absent hconst [("a", "1")] "zz" (by decide)).2⟩

/-- C6: the claim says `new()` zero-initialises every one of the
`NUM_BUCKETS` bucket slots.  That is the intent of the `memset` in
`Hashmap()`, but the byte count it passes is `sizeof(h->data)` — the size
of the `hashmap_entry *` pointer — which on every platform (pointer size
`> 0`, `sizeof(hashmap_entry) ≥ 3 * ptrSize + 4` for its four fields) is
strictly smaller than the `NUM_BUCKETS * sizeof(hashmap_entry)` bytes the
bucket array occupies, so almost the whole array is left uninitialised. -/
theorem init_memset_shorter_than_bucket_array (ptrSize entrySize : Nat)
    (hp : 0 < ptrSize) (he : 3 * ptrSize + 4 ≤ entrySize) :
    hashmap_init_memset_len ptrSize < bucket_array_bytes entrySize := by
  show ptrSize < NUM_BUCKETS * entrySize
  show ptrSize < 256 * entrySize
  omega

/-- Witness for C6 on a 64-bit platform layout. -/
theorem init_memset_shorter_than_bucket_array_witness :
    0 < 8 ∧ 3 * 8 + 4 ≤ 32 ∧
    hashmap_init_memset_len 8 < bucket_array_bytes 32 :=
  ⟨by decide, by decide,
    init_memset_shorter_than_bucket_array 8 32 (by decide) (by decide)⟩

set_option maxRecDepth 4000 in
/-- C7 counterexample: the claim says `num_entries` equals the number of
populated entries after every put.  After `put("a","1")` on a fresh table
the table holds one populated entry but `num_entries` is still `0`:
`hashmap_add` never updates the field. -/
theorem num_entries_not_tracking_counterexample :
    (runOps hconst [("a", "1")]).num_entries = 0 ∧
    (hashmap_entries (runOps hconst [("a", "1")])).length = 1 :=
  ⟨by decide, by decide⟩

/-- C7 amended: `num_entries` is set to `0` at construction and never
modified by any sequence of puts; it equals the populated-entry count only
while the table is empty. -/
theorem num_entries_never_updated (hfn : String → Nat)
    (ops : List (String × String)) :
    (runOps hfn ops).num_entries = 0 ∧ Hashmap.num_entries = 0 :=
  ⟨runOps_num_entries hfn ops, rfl⟩

set_option maxRecDepth 4000 in
/-- C8: on every reachable table, `keys()` lists each stored key exactly
once — as a set it is exactly the stored keys — its length is the number of
populated entries (not the bucket count), and on the fresh table it is
empty.  (The definition of `hashmap_keys` itself records the traversal
order: buckets in array order, each chain in chain order.) -/
theorem keys_exactly_distinct_stored_keys (hfn : String → Nat)
    (ops : List (String × String)) :
    (hashmap_keys (runOps hfn ops)).Nodup ∧
    (∀ k, some k ∈ hashmap_keys (runOps hfn ops)
      ↔ k ∈ storedKeys (runOps hfn ops)) ∧
    (hashmap_keys (runOps hfn ops)).length
      = (hashmap_entries (runOps hfn ops)).length ∧
    hashmap_keys Hashmap = [] := by
  have hw := WF_runOps hfn ops
  refine ⟨?_, ?_, hashmap_keys_length_eq_entries hfn _ hw, by decide⟩
  · rw [hashmap_keys_eq_stored hfn _ hw]
    exact (storedKeys_nodup hfn _ hw).map (Option.some_injective String)
  · intro k
    rw [hashmap_keys_eq_stored hfn _ hw]
    constructor
    · intro hmem
      rcases List.mem_map.1 hmem with ⟨a, ha, hak⟩
      have hak2 : a = k := by simpa using hak
      exact hak2 ▸ ha
    · intro hmem
      exact List.mem_map_of_mem some hmem

set_option maxRecDepth 4000 in
/-- C9: the claim says `destroy` releases the key/value storage of every
entry and every non-head chain node, with no leak.  The code refutes this:
a bucket whose head has no chain is skipped entirely (its key and value
leak), and in a bucket with a chain the walk stops before the last node,
leaking the last node together with its key and value.  After
`put("a","1")` the table holds one entry but `hashmap_free` releases no
entry storage at all; after inserting three colliding keys it releases only
the first two entries and leaks the last. -/
theorem free_leaks_entry_storage :
    hashmap_free_freed (runOps hconst [("a", "1")]) = [] ∧
    hashmap_entries (runOps hconst [("a", "1")])
      = [(some "a", some "1")] ∧
    hashmap_free_freed (runOps hconst [("a", "1"), ("b", "2"), ("c", "3")])
      = [(some "a", some "1"), (some "b", some "2")] ∧
    hashmap_entries (runOps hconst [("a", "1"), ("b", "2"), ("c", "3")])
      = [(some "a", some "1"), (some "b", some "2"), (some "c", some "3")] :=
  ⟨by decide, by decide, by decide, by decide⟩

/-- C10: after every `put(k, v)` on a reachable table, the cell that stores
`k` is the last cell of its bucket's chain (its `next` is `NULL`): the cell
list of bucket `hash(k)` ends with the cell `(k, v)`.  Consequently any
nodes that previously followed that entry are no longer reachable from the
table. -/
theorem put_entry_becomes_chain_tail (hfn : String → Nat)
    (ops : List (String × String)) (k v : String) :
    (cellsOf ((hashmap_add hfn (runOps hfn ops) k v).data.getD
        (hash hfn (runOps hfn ops) k) emptyBucket)).getLast?
      = some (some k, some v) := by
  have hw := WF_runOps hfn ops
  have hidx : hash hfn (runOps hfn ops) k < (runOps hfn ops).data.length := by
    rw [hash, hw.1, hw.2.1]
    exact Nat.mod_lt _ (by norm_num [NUM_BUCKETS])
  have hdata : (hashmap_add hfn (runOps hfn ops) k v).data
      = (runOps hfn ops).data.set (hash hfn (runOps hfn ops) k)
          (bucketAdd k v ((runOps hfn ops).data.getD
            (hash hfn (runOps hfn ops) k) emptyBucket)) := rfl
  rw [hdata, getD_set_self _ _ _ hidx]
  exact cellsOf_bucketAdd_getLast k v _

end HashmapC
